import Mathlib

/-!
# Verification of the gomarkdoc specification-resolution and output pipeline

Shallow embedding of the core of `cmd/command.go` and `cmd/output.go` of the
gomarkdoc repository: tag resolution (`DefaultTags`), path expansion
(`GetSpecs` / `IsIgnoredDir` / `IsLocalPath`), destination grouping
(`WriteOutput`), the verify policy (`CheckFile` / `Compare`) and the merge
policy (`EmbedContents` with its two marker regular expressions).

Modelling conventions:
* Go strings and file contents are modelled as `List Char` (the contents of
  interest are ASCII, where Go's byte-wise operations agree with the
  character-wise model).
* Byte streams (the inputs of `Compare`) are modelled as `List (Fin 256)`.
* The filesystem is modelled as a lookup function; `none` plays the role of a
  not-found / unreadable entry.
* Fallible operations return `Option` / explicit result types.
-/

namespace Gomarkdoc

/-! ## String helpers (strings.Fields, strings.Split) -/

/-- ASCII whitespace recognized by `unicode.IsSpace`, which `strings.Fields`
splits on. -/
def fieldsSpace (c : Char) : Bool :=
  c = ' ' || c = '\t' || c = '\n' || c = '\x0b' || c = '\x0c' || c = '\r'

/-- Helper for `fieldsGo`: `acc` is the current (reversed) in-progress word. -/
def fieldsAux : List Char → List Char → List (List Char)
  | acc, [] => if acc = [] then [] else [acc.reverse]
  | acc, c :: cs =>
    if fieldsSpace c then
      if acc = [] then fieldsAux [] cs else acc.reverse :: fieldsAux [] cs
    else fieldsAux (c :: acc) cs

/-- `strings.Fields`: split a string around runs of whitespace. -/
def fieldsGo (s : List Char) : List (List Char) :=
  fieldsAux [] s

/-- Helper for `splitGo`: `acc` is the current (reversed) segment. -/
def splitAux (sep : Char) : List Char → List Char → List (List Char)
  | acc, [] => [acc.reverse]
  | acc, c :: cs =>
    if c = sep then acc.reverse :: splitAux sep [] cs
    else splitAux sep (c :: acc) cs

/-- `strings.Split` with a single-character separator. In particular
`splitGo ',' [] = [[]]`, matching `strings.Split("", ",") = [""]`. -/
def splitGo (sep : Char) (s : List Char) : List (List Char) :=
  splitAux sep [] s

/-! ## TagResolver: `DefaultTags` (cmd/command.go)

```go
func DefaultTags() []string {
    f, ok := os.LookupEnv("GOFLAGS")
    if !ok { return nil }
    fs := flag.NewFlagSet("goflags", flag.ContinueOnError)
    tags := fs.String("Tags", "", "")
    if err := fs.Parse(strings.Fields(f)); err != nil { return nil }
    if tags == nil { return nil }
    return strings.Split(*tags, ",")
}
```

The flag set registers exactly one flag, the string flag named `"Tags"`. We
model `fs.Parse` by the `parseOne` loop of the standard `flag` package,
restricted to that flag set. Every outcome that makes `Parse` return a
non-nil error (bad flag syntax, unknown flag — including the implicit
`-help`/`-h`, which yields `ErrHelp` — and a flag missing its argument) is
collapsed into `FlagParse.err`, since `DefaultTags` only distinguishes
error from success. -/

/-- Result of `fs.Parse` for the flag set of `DefaultTags`: an error, or the
final value of the `Tags` flag. -/
inductive FlagParse
  | ok (tagsVal : List Char)
  | err
deriving DecidableEq

/-- The name of the single registered flag in `DefaultTags` (the source
registers `fs.String("Tags", "", "")`). -/
def tagsFlagName : List Char := "Tags".toList

/-- Split `cs` at the first `'='`, returning the part before and after it.
Used for the `name=value` form; `flag.parseOne` searches for `'='` only from
index 1 of the flag name ("equals cannot be first"), so this is applied to
the tail of the name. -/
def splitAtEq : List Char → Option (List Char × List Char)
  | [] => none
  | c :: cs =>
    if c = '=' then some ([], cs)
    else (splitAtEq cs).map (fun p => (c :: p.1, p.2))

/-- The `parseOne` loop of `flag.(*FlagSet).Parse`, specialized to a flag set
whose only formal flag is the string flag `Tags`. `tagsVal` is the current
value of that flag (its default is `""`). Terminating without error (a
non-flag argument, or the `"--"` terminator) returns the current value. -/
def parseGoFlags : List Char → List (List Char) → FlagParse
  | tagsVal, [] => .ok tagsVal
  | tagsVal, s :: rest =>
    -- if len(s) < 2 || s[0] != '-' { stop, no error }
    if s.length < 2 || s.head? ≠ some '-' then .ok tagsVal
    else
      let twoMinuses := (s.drop 1).head? = some '-'
      -- "--" terminates the flags (stop, no error)
      if twoMinuses && s.length = 2 then .ok tagsVal
      else
        let name := if twoMinuses then s.drop 2 else s.drop 1
        match name with
        | [] => .err -- bad flag syntax
        | c :: cs =>
          if c = '-' || c = '=' then .err -- bad flag syntax
          else
            match splitAtEq cs with
            | some (pre, val) =>
              -- name=value form
              if c :: pre = tagsFlagName then parseGoFlags val rest
              else .err -- flag provided but not defined (or ErrHelp)
            | none =>
              if c :: cs = tagsFlagName then
                -- string flag: value is the next argument
                match rest with
                | [] => .err -- flag needs an argument
                | v :: rest2 => parseGoFlags v rest2
              else .err -- flag provided but not defined (or ErrHelp)

/-- `DefaultTags` from cmd/command.go. `goflags` is the value of the
environment variable `GOFLAGS` (`none` when unset). The `tags == nil`
check in the source is vacuous (`fs.String` never returns a nil pointer),
so it is not represented. -/
def DefaultTags (goflags : Option (List Char)) : List (List Char) :=
  match goflags with
  | none => []
  | some f =>
    match parseGoFlags [] (fieldsGo f) with
    | .err => []
    | .ok v => splitGo ',' v

example : DefaultTags none = [] := by decide
example : DefaultTags (some "-Tags=foo,bar".toList) = ["foo".toList, "bar".toList] := by decide
example : DefaultTags (some "-tags=foo,bar".toList) = [] := by decide
example : DefaultTags (some "-other=x".toList) = [] := by decide
example : DefaultTags (some "-=x".toList) = [] := by decide
example : DefaultTags (some "".toList) = [[]] := by decide
example : DefaultTags (some "invalid".toList) = [[]] := by decide
example : DefaultTags (some "-Tags foo,bar".toList) = ["foo".toList, "bar".toList] := by decide

/-! ## StreamEqual: `Compare` (cmd/command.go)

```go
func Compare(r1, r2 io.Reader) (bool, error) {
    r1Hash := fnv.New128()
    if _, err := io.Copy(r1Hash, r1); err != nil { ... }
    r2Hash := fnv.New128()
    if _, err := io.Copy(r2Hash, r2); err != nil { ... }
    return bytes.Equal(r1Hash.Sum(nil), r2Hash.Sum(nil)), nil
}
```

`fnv.New128()` is the 128-bit FNV-1 hash: starting from the offset basis,
each input byte `c` updates the state by `h = (h * prime) mod 2^128` followed
by `h = h XOR c` (the byte is folded into the low 64-bit word, which equals a
plain XOR on the 128-bit value since `c < 256`). `Sum` serializes the final
128-bit state big-endian, so `bytes.Equal` of the two sums is exactly
equality of the two final states (the serialization is injective on values
below `2^128`). Streams are pure here, so the I/O error paths do not arise. -/

/-- The 128-bit FNV prime `2^88 + 2^8 + 0x3b`. -/
def fnvPrime128 : Nat := 2 ^ 88 + 0x13b

/-- The 128-bit FNV-1 offset basis. -/
def fnvOffset128 : Nat := 0x6c62272e07bb014262b821756295c58d

/-- One byte of FNV-1 128: multiply by the prime modulo `2^128`, then XOR in
the byte. -/
def fnvStep (h : Nat) (b : Fin 256) : Nat :=
  ((h * fnvPrime128) % 2 ^ 128) ^^^ b.val

/-- The 128-bit FNV-1 digest of a byte stream, as computed by
`io.Copy(fnv.New128(), r)`. -/
def fnv128 (bs : List (Fin 256)) : Nat :=
  bs.foldl fnvStep fnvOffset128

/-- `Compare` from cmd/command.go: hash both streams with FNV-1 128 and
compare the resulting digests. -/
def Compare (r1 r2 : List (Fin 256)) : Bool :=
  fnv128 r1 == fnv128 r2

theorem Nat.xor_lt_two_pow' {x y n : Nat} (hx : x < 2 ^ n) (hy : y < 2 ^ n) :
    x ^^^ y < 2 ^ n :=
  Nat.bitwise_lt hx hy

/-- The FNV-1 128 state always stays below `2^128`. -/
theorem fnv128_lt (bs : List (Fin 256)) : fnv128 bs < 2 ^ 128 := by
  have h : ∀ (l : List (Fin 256)) (h₀ : Nat), h₀ < 2 ^ 128 →
      l.foldl fnvStep h₀ < 2 ^ 128 := by
    intro l
    induction l with
    | nil => intro h₀ hh; simpa using hh
    | cons b l ih =>
      intro h₀ _
      refine ih _ (Nat.xor_lt_two_pow' (Nat.mod_lt _ (by positivity)) ?_)
      exact lt_of_lt_of_le b.isLt (by norm_num)
  exact h bs fnvOffset128 (by norm_num [fnvOffset128])

example : Compare [] [] = true := by decide
example : Compare [(0 : Fin 256)] [(1 : Fin 256)] = false := by decide

/-! ## Reconciler, verify policy: `CheckFile` (cmd/output.go)

```go
func CheckFile(b *bytes.Buffer, path string) error {
    checkErr := errors.New("Output does not match current files. Did you forget to run gomarkdoc?")
    f, err := os.Open(path)
    if err != nil {
        if err == os.ErrNotExist { return checkErr }
        return fmt.Errorf("failed to open file %s for checking: %w", path, err)
    }
    defer f.Close()
    match, err := Compare(b, f)
    if err != nil { ... }
    if !match { return checkErr }
    return nil
}
```

`os.Open` never returns the sentinel `os.ErrNotExist` itself: on failure it
returns a `*fs.PathError` value wrapping the underlying error (for a missing
file, wrapping `fs.ErrNotExist`). We model Go error values by `GoError`, and
the `err == os.ErrNotExist` pointer comparison by equality with the
`errNotExist` sentinel constructor. -/

/-- Go error values relevant to `CheckFile`: the `os.ErrNotExist` sentinel
and the `*fs.PathError` wrapper produced by `os.Open` (`Op`, `Path`,
wrapped error). -/
inductive GoError
  | errNotExist
  | pathError (op : List Char) (path : List Char) (inner : GoError)
deriving DecidableEq

/-- `os.Open`: on a missing file it returns a `*fs.PathError` with operation
`"open"` wrapping `fs.ErrNotExist` — never the bare sentinel. The filesystem
is a map from path to file bytes. -/
def osOpen (fs : List Char → Option (List (Fin 256))) (path : List Char) :
    Except GoError (List (Fin 256)) :=
  match fs path with
  | some content => .ok content
  | none => .error (.pathError "open".toList path .errNotExist)

/-- The possible results of `CheckFile`: success, the drift error
(`"Output does not match current files. Did you forget to run gomarkdoc?"`),
or the wrapped open-failure error
(`"failed to open file %s for checking: %w"`). `CheckFile` performs no
writes in any branch. -/
inductive CheckResult
  | ok
  | driftErr
  | openFailErr (e : GoError)
deriving DecidableEq

/-- `CheckFile` from cmd/output.go: `rendered` is the buffered rendered text,
`path` the destination. The comparison `err == os.ErrNotExist` of the source
is modelled verbatim as equality with the sentinel. -/
def CheckFile (fs : List Char → Option (List (Fin 256))) (rendered : List (Fin 256))
    (path : List Char) : CheckResult :=
  match osOpen fs path with
  | .error err =>
    if err = GoError.errNotExist then .driftErr
    else .openFailErr err
  | .ok content =>
    if Compare rendered content then .ok else .driftErr

example :
    CheckFile (fun _ => none) [(42 : Fin 256)] "README.md".toList =
      .openFailErr (.pathError "open".toList "README.md".toList .errNotExist) := by decide
example :
    CheckFile (fun _ => some [(42 : Fin 256)]) [(42 : Fin 256)] "README.md".toList = .ok := by
  decide
example :
    CheckFile (fun _ => some [(42 : Fin 256)]) [(43 : Fin 256)] "README.md".toList =
      .driftErr := by decide

/-! ## Reconciler, merge policy: `EmbedContents` (cmd/output.go)

```go
var (
    embedStandaloneRegex = regexp.MustCompile(`(?m:^ *)<!--\s*gomarkdoc:Embed\s*-->(?m:\s*?$)`)
    embedStartRegex      = regexp.MustCompile(
        `(?m:^ *)<!--\s*gomarkdoc:Embed:start\s*-->(?s:.*?)<!--\s*gomarkdoc:Embed:end\s*-->(?m:\s*?$)`,
    )
)

func EmbedContents(log logger.Logger, fileName string, text string) string {
    embedText := fmt.Sprintf("<!-- gomarkdoc:Embed:start -->\n\n%s\n\n<!-- gomarkdoc:Embed:end -->", text)
    data, err := os.ReadFile(fileName)
    if err != nil { return embedText }
    var replacements int
    data = embedStandaloneRegex.ReplaceAllFunc(data, func(_ []byte) []byte { replacements++; return []byte(embedText) })
    data = embedStartRegex.ReplaceAllFunc(data, func(_ []byte) []byte { replacements++; return []byte(embedText) })
    if replacements == 0 { return fmt.Sprintf("%s\n\n%s", string(data), text) }
    return string(data)
}
```

The two patterns are matched with Go's leftmost, backtracking-first
semantics. Both are deterministic once spelled out: every greedy `\s*` is
immediately followed by a literal beginning with a non-whitespace character,
so it is equivalent to "consume all whitespace"; `(?s:.*?)` is the shortest
skip after which the remainder of the pattern matches; `(?m:\s*?$)` is the
shortest run of whitespace ending at an end of line (`$` matches at the end
of the input or immediately before `'\n'`); `(?m:^ *)` anchors the match to
the start of a line (position 0 or just after `'\n'`) followed by a greedy
run of plain spaces. The matchers below return the remaining suffix after a
match starting at the given position, or `none`.

`ReplaceAllFunc` scans left to right: at each position where a match can
start (here: line starts), the leftmost match is replaced and scanning
resumes after it. `scanRep` implements that scan with a fuel argument;
since every match of these patterns consumes at least one character, a fuel
equal to the input length is never exhausted. A successful match of either
pattern ends at an end-of-line position without consuming the `'\n'`, so the
position after a match is never a line start. -/

/-- RE2 `\s`: `[\t\n\f\r ]`. -/
def goWs (c : Char) : Bool :=
  c = '\t' || c = '\n' || c = '\x0c' || c = '\r' || c = ' '

/-- Consume a literal prefix, returning the remaining suffix. -/
def dropLit : List Char → List Char → Option (List Char)
  | [], s => some s
  | _ :: _, [] => none
  | l :: ls, c :: cs => if c = l then dropLit ls cs else none

/-- Greedy `' '*` (the ` *` after the `^` anchor). -/
def dropSp : List Char → List Char
  | [] => []
  | c :: cs => if c = ' ' then dropSp cs else c :: cs

/-- Greedy `\s*`. -/
def dropWs : List Char → List Char
  | [] => []
  | c :: cs => if goWs c then dropWs cs else c :: cs

/-- Lazy `(?m:\s*?$)`: the shortest whitespace run ending at an end of line.
`$` (multiline) holds at the end of the input or just before `'\n'`, so a
`'\n'` is never consumed. -/
def lazyEol : List Char → Option (List Char)
  | [] => some []
  | c :: cs =>
    if c = '\n' then some (c :: cs)
    else if goWs c then lazyEol cs
    else none

/-- `<!--` -/
def openLit : List Char := "<!--".toList

/-- `-->` -/
def closeLit : List Char := "-->".toList

/-- The keyword of the standalone marker (note the exact casing used by the
source). -/
def keyAlone : List Char := "gomarkdoc:Embed".toList

/-- The keyword of the region start marker. -/
def keyStart : List Char := "gomarkdoc:Embed:start".toList

/-- The keyword of the region end marker. -/
def keyEnd : List Char := "gomarkdoc:Embed:end".toList

/-- A match of `embedStandaloneRegex` starting at this position (which the
scanner only tries at line starts, for the `^` anchor): ` *`, `<!--`, `\s*`,
the keyword, `\s*`, `-->`, `(?m:\s*?$)`. -/
def matchAlone (s : List Char) : Option (List Char) :=
  (dropLit openLit (dropSp s)).bind fun s2 =>
  (dropLit keyAlone (dropWs s2)).bind fun s4 =>
  (dropLit closeLit (dropWs s4)).bind fun s6 =>
  lazyEol s6

/-- The tail `<!--\s*gomarkdoc:Embed:end\s*-->(?m:\s*?$)` of
`embedStartRegex`, matched at this exact position (no `^` anchor, no leading
spaces). -/
def matchEndMark (s : List Char) : Option (List Char) :=
  (dropLit openLit s).bind fun s2 =>
  (dropLit keyEnd (dropWs s2)).bind fun s4 =>
  (dropLit closeLit (dropWs s4)).bind fun s6 =>
  lazyEol s6

/-- Lazy `(?s:.*?)` followed by the end-marker tail: try the tail at each
offset, shortest skip first. -/
def searchEnd : List Char → Option (List Char)
  | [] => none
  | c :: cs =>
    match matchEndMark (c :: cs) with
    | some r => some r
    | none => searchEnd cs

/-- A match of `embedStartRegex` starting at this position (line starts
only): ` *`, `<!--`, `\s*`, the start keyword, `\s*`, `-->`, then the lazy
search for the end-marker tail. -/
def matchRegion (s : List Char) : Option (List Char) :=
  (dropLit openLit (dropSp s)).bind fun s2 =>
  (dropLit keyStart (dropWs s2)).bind fun s4 =>
  (dropLit closeLit (dropWs s4)).bind fun s6 =>
  searchEnd s6

/-- `regexp.ReplaceAllFunc` for an anchored pattern `f`, replacing each match
by `repl` and counting replacements. `lineStart` tracks whether the current
position is at the start of a line of the original input (position 0 or
preceded by `'\n'`); matches are only attempted there, mirroring the
`(?m:^ *)` anchor. After a match the next position is preceded by a
non-newline character (see the module comment), so scanning resumes with
`lineStart = false`. One unit of fuel is spent per step and every match
consumes at least one character, so fuel `s.length` is never exhausted; on
exhaustion the remaining input is emitted unchanged. -/
def scanRep (f : List Char → Option (List Char)) (repl : List Char) :
    Nat → List Char → Bool → List Char × Nat
  | 0, s, _ => (s, 0)
  | _ + 1, [], _ => ([], 0)
  | fuel + 1, c :: cs, lineStart =>
    if lineStart then
      match f (c :: cs) with
      | some rest =>
        let t := scanRep f repl fuel rest false
        (repl ++ t.1, t.2 + 1)
      | none =>
        let t := scanRep f repl fuel cs (c = '\n')
        (c :: t.1, t.2)
    else
      let t := scanRep f repl fuel cs (c = '\n')
      (c :: t.1, t.2)

/-- `"\n\n"` -/
def nl2 : List Char := ['\n', '\n']

/-- The start marker line written by `EmbedContents`. -/
def startMark : List Char := "<!-- gomarkdoc:Embed:start -->".toList

/-- The end marker line written by `EmbedContents`. -/
def endMark : List Char := "<!-- gomarkdoc:Embed:end -->".toList

/-- The standalone marker in the exact casing of the source's regex. -/
def aloneMark : List Char := "<!-- gomarkdoc:Embed -->".toList

/-- The wrapped block `embedText` of `EmbedContents`:
`"<!-- gomarkdoc:Embed:start -->\n\n%s\n\n<!-- gomarkdoc:Embed:end -->"`. -/
def embedWrap (text : List Char) : List Char :=
  startMark ++ nl2 ++ text ++ nl2 ++ endMark

/-- `EmbedContents` from cmd/output.go. `data?` is the result of
`os.ReadFile(fileName)` (`none` on any read error, in which case the wrapped
block is the whole result). Otherwise the standalone pattern and then the
region pattern are each replaced everywhere by the wrapped block; if neither
pattern occurred, `"%s\n\n%s"` of the (unchanged) data and the *bare* text is
returned. -/
def EmbedContents (data? : Option (List Char)) (text : List Char) : List Char :=
  let embedText := embedWrap text
  match data? with
  | none => embedText
  | some data =>
    let r1 := scanRep matchAlone embedText data.length data true
    let r2 := scanRep matchRegion embedText r1.1.length r1.1 true
    if r1.2 + r2.2 = 0 then r2.1 ++ nl2 ++ text
    else r2.1

-- no markers: the bare text is appended after a blank line (not the wrapped block)
example :
    EmbedContents (some "# T".toList) "docs".toList =
      "# T".toList ++ nl2 ++ "docs".toList := by decide
-- missing file: the wrapped block
example : EmbedContents none "docs".toList = embedWrap "docs".toList := by decide
-- a wrapped region for the same text is replaced by itself
example :
    EmbedContents (some (embedWrap "docs".toList)) "docs".toList =
      embedWrap "docs".toList := by decide
-- standalone marker is replaced by the wrapped block
example :
    EmbedContents (some ("# A\n".toList ++ aloneMark)) "docs".toList =
      "# A\n".toList ++ embedWrap "docs".toList := by decide
-- indented standalone marker: the indentation is part of the match
example :
    EmbedContents (some ("# A\n  ".toList ++ aloneMark ++ "\nrest".toList)) "docs".toList =
      "# A\n".toList ++ embedWrap "docs".toList ++ "\nrest".toList := by decide
-- lower-case marker keyword is not recognized: appended instead
example :
    EmbedContents (some "# A\n<!-- gomarkdoc:embed -->".toList) "docs".toList =
      "# A\n<!-- gomarkdoc:embed -->".toList ++ nl2 ++ "docs".toList := by decide
-- a stale region is replaced wholesale
example :
    EmbedContents (some ("x\n".toList ++ startMark ++ "\nold\n".toList ++ endMark)) "new".toList =
      "x\n".toList ++ embedWrap "new".toList := by decide
-- non-idempotence when the text itself contains an end marker
example :
    EmbedContents (some (embedWrap endMark)) endMark ≠ embedWrap endMark := by decide

/-! ### Infrastructure for the universal merge lemmas

Both marker patterns can only fire where the literal `<!--` occurs, and none
of the characters of `<!--` is a newline. The lemmas below make that precise
so that marker-free stretches of a file can be skipped wholesale. -/

/-- `<!--` occurs at the start of `s`. -/
def opensHere (s : List Char) : Bool :=
  (dropLit openLit s).isSome

/-- `<!--` occurs somewhere in `s`. -/
def containsOpen : List Char → Bool
  | [] => false
  | c :: cs => opensHere (c :: cs) || containsOpen cs

/-- `s` ends with a newline character. -/
def endsNl (s : List Char) : Prop :=
  ∃ s0, s = s0 ++ ['\n']

theorem dropLit_append_isSome {lit s : List Char} (h : (dropLit lit s).isSome) (r : List Char) :
    (dropLit lit (s ++ r)).isSome := by
  induction lit generalizing s with
  | nil => simp [dropLit]
  | cons l ls ih =>
    cases s with
    | nil => simp [dropLit] at h
    | cons c cs =>
      simp only [dropLit, List.cons_append] at h ⊢
      split at h
      · simp only [*, if_true]
        exact ih h
      · simp at h

theorem opensHere_append {s : List Char} (h : opensHere s) (r : List Char) :
    opensHere (s ++ r) :=
  dropLit_append_isSome h r

theorem containsOpen_of_opensHere {t s : List Char} (ht : t <:+ s) (h : opensHere t) :
    containsOpen s = true := by
  induction s with
  | nil =>
    rw [List.suffix_nil.mp ht] at h
    simp [opensHere, dropLit] at h
  | cons c cs ih =>
    rcases ht with ⟨u, hu⟩
    cases u with
    | nil =>
      simp only [List.nil_append] at hu
      rw [containsOpen, ← hu, h]
      simp
    | cons d ds =>
      simp only [List.cons_append, List.cons.injEq] at hu
      rw [containsOpen, ih ⟨ds, hu.2⟩]
      simp

theorem containsOpen_sfx {t s : List Char} (ht : t <:+ s) (h : containsOpen s = false) :
    containsOpen t = false := by
  induction s with
  | nil => rw [List.suffix_nil.mp ht]; rfl
  | cons c cs ih =>
    rcases ht with ⟨u, hu⟩
    cases u with
    | nil => simp only [List.nil_append] at hu; rw [hu]; exact h
    | cons d ds =>
      simp only [List.cons_append, List.cons.injEq] at hu
      simp only [containsOpen, Bool.or_eq_false_iff] at h
      exact ih ⟨ds, hu.2⟩ h.2

/-- A literal without `'\n'` that matches across an `a ++ '\n' :: b` boundary
must already match inside `a`. -/
theorem dropLit_nl_straddle {lit a b : List Char} (hnl : '\n' ∉ lit)
    (h : (dropLit lit (a ++ '\n' :: b)).isSome) : (dropLit lit a).isSome := by
  induction lit generalizing a with
  | nil => simp [dropLit]
  | cons l ls ih =>
    cases a with
    | nil =>
      exfalso
      simp only [List.nil_append, dropLit] at h
      split at h
      · exact hnl (by simp_all)
      · simp at h
    | cons c cs =>
      simp only [List.cons_append, dropLit] at h ⊢
      split at h
      · simpa [*] using ih (by simp_all) h
      · simp at h

/-- No `<!--` straddles a newline: appending across a `'\n'` preserves
`<!--`-freeness. -/
theorem containsOpen_append_nl {a b : List Char} (ha : containsOpen a = false)
    (hb : containsOpen ('\n' :: b) = false) : containsOpen (a ++ '\n' :: b) = false := by
  induction a with
  | nil => simpa using hb
  | cons c cs ih =>
    simp only [containsOpen, Bool.or_eq_false_iff] at ha
    have h1 : opensHere ((c :: cs) ++ '\n' :: b) = false := by
      rw [← Bool.not_eq_true]
      intro h
      have h' : (dropLit openLit ((c :: cs) ++ '\n' :: b)).isSome := h
      have h2 := @dropLit_nl_straddle openLit _ _ (by decide) h'
      have h3 : opensHere (c :: cs) = true := h2
      rw [ha.1] at h3
      exact Bool.false_ne_true h3
    have h4 := ih ha.2
    rw [List.cons_append, containsOpen, h4]
    rw [List.cons_append] at h1
    rw [h1]
    rfl

theorem endsNl_tail {c : Char} {cs : List Char} (h : endsNl (c :: cs)) (hne : cs ≠ []) :
    endsNl cs := by
  rcases h with ⟨s0, hs0⟩
  cases s0 with
  | nil =>
    simp only [List.nil_append, List.cons.injEq] at hs0
    exact absurd hs0.2 hne
  | cons d ds =>
    simp only [List.cons_append, List.cons.injEq] at hs0
    exact ⟨ds, hs0.2⟩

theorem endsNl_sfx {q s : List Char} (hq : q <:+ s) (hne : q ≠ []) (h : endsNl s) :
    endsNl q := by
  induction s with
  | nil => exact absurd (List.suffix_nil.mp hq) hne
  | cons c cs ih =>
    rcases hq with ⟨u, hu⟩
    cases u with
    | nil => simp only [List.nil_append] at hu; rw [hu]; exact h
    | cons d ds =>
      simp only [List.cons_append, List.cons.injEq] at hu
      have hcs : cs ≠ [] := by
        intro hnil
        rw [hnil, List.append_eq_nil] at hu
        exact hne hu.2.2
      exact ih ⟨ds, hu.2⟩ (endsNl_tail h hcs)

theorem dropSp_sfx (s : List Char) : dropSp s <:+ s := by
  induction s with
  | nil => exact List.suffix_rfl
  | cons c cs ih =>
    rw [dropSp]
    split
    · exact ih.trans (List.suffix_cons c cs)
    · exact List.suffix_rfl

/-- Leading-space stripping on `q ++ v` stops inside `q` when `q` ends with a
newline. -/
theorem dropSp_append_endsNl {q : List Char} (h : endsNl q) (v : List Char) :
    ∃ q2, dropSp (q ++ v) = q2 ++ v ∧ q2 <:+ q ∧ endsNl q2 := by
  induction q with
  | nil => rcases h with ⟨s0, hs0⟩; simp at hs0
  | cons c cs ih =>
    by_cases hc : c = ' '
    · have hcs : cs ≠ [] := by
        intro hnil
        rcases h with ⟨s0, hs0⟩
        cases s0 with
        | nil =>
          simp only [List.nil_append, List.cons.injEq] at hs0
          rw [hs0.1] at hc
          exact absurd hc (by decide)
        | cons d ds =>
          simp only [List.cons_append, List.cons.injEq] at hs0
          rw [hnil] at hs0
          exact absurd hs0.2.symm (by simp)
      rcases ih (endsNl_tail h hcs) with ⟨q2, h1, h2, h3⟩
      refine ⟨q2, ?_, h2.trans (List.suffix_cons c cs), h3⟩
      rw [List.cons_append, dropSp, if_pos hc]
      exact h1
    · exact ⟨c :: cs, by rw [List.cons_append, dropSp, if_neg hc], List.suffix_rfl, h⟩

/-- `<!--` cannot match at the start of `q ++ v` when `q` is `<!--`-free and
ends with a newline (the literal cannot straddle the final newline). -/
theorem opensHere_pre_false {q v : List Char} (hc : containsOpen q = false)
    (hnl : endsNl q) : opensHere (q ++ v) = false := by
  rcases hnl with ⟨q0, rfl⟩
  rw [← Bool.not_eq_true]
  intro h
  have h1 : (dropLit openLit (q0 ++ '\n' :: v)).isSome := by
    have : (q0 ++ ['\n']) ++ v = q0 ++ '\n' :: v := by simp
    rw [opensHere, this] at h
    exact h
  have h2 := @dropLit_nl_straddle openLit _ _ (by decide) h1
  have h3 : opensHere (q0 ++ ['\n']) := dropLit_append_isSome h2 ['\n']
  rw [containsOpen_of_opensHere List.suffix_rfl h3] at hc
  exact Bool.noConfusion hc

theorem matchAlone_none_of_pre {q v : List Char} (hc : containsOpen q = false)
    (hnl : endsNl q) : matchAlone (q ++ v) = none := by
  rcases dropSp_append_endsNl hnl v with ⟨q2, heq, hsfx, hnl2⟩
  have h1 : opensHere (q2 ++ v) = false :=
    opensHere_pre_false (containsOpen_sfx hsfx hc) hnl2
  have h2 : dropLit openLit (q2 ++ v) = none :=
    Option.not_isSome_iff_eq_none.mp (by rw [← opensHere]; simp [h1])
  rw [matchAlone, heq, h2]
  rfl

theorem matchRegion_none_of_pre {q v : List Char} (hc : containsOpen q = false)
    (hnl : endsNl q) : matchRegion (q ++ v) = none := by
  rcases dropSp_append_endsNl hnl v with ⟨q2, heq, hsfx, hnl2⟩
  have h1 : opensHere (q2 ++ v) = false :=
    opensHere_pre_false (containsOpen_sfx hsfx hc) hnl2
  have h2 : dropLit openLit (q2 ++ v) = none :=
    Option.not_isSome_iff_eq_none.mp (by rw [← opensHere]; simp [h1])
  rw [matchRegion, heq, h2]
  rfl

theorem matchEndMark_none_of_pre {q v : List Char} (hc : containsOpen q = false)
    (hnl : endsNl q) : matchEndMark (q ++ v) = none := by
  have h1 : opensHere (q ++ v) = false := opensHere_pre_false hc hnl
  have h2 : dropLit openLit (q ++ v) = none :=
    Option.not_isSome_iff_eq_none.mp (by rw [← opensHere]; simp [h1])
  rw [matchEndMark, h2]
  rfl

theorem matchAlone_none_of_clean {s : List Char} (hc : containsOpen s = false) :
    matchAlone s = none := by
  have h1 : opensHere (dropSp s) = false := by
    rw [← Bool.not_eq_true]
    intro h
    rw [containsOpen_of_opensHere (dropSp_sfx s) h] at hc
    exact Bool.noConfusion hc
  have h2 : dropLit openLit (dropSp s) = none :=
    Option.not_isSome_iff_eq_none.mp (by rw [← opensHere]; simp [h1])
  rw [matchAlone, h2]
  rfl

theorem matchRegion_none_of_clean {s : List Char} (hc : containsOpen s = false) :
    matchRegion s = none := by
  have h1 : opensHere (dropSp s) = false := by
    rw [← Bool.not_eq_true]
    intro h
    rw [containsOpen_of_opensHere (dropSp_sfx s) h] at hc
    exact Bool.noConfusion hc
  have h2 : dropLit openLit (dropSp s) = none :=
    Option.not_isSome_iff_eq_none.mp (by rw [← opensHere]; simp [h1])
  rw [matchRegion, h2]
  rfl

/-! ### Scanner stepping and skipping lemmas -/

/-- One scanner step where no match starts (either not at a line start, or
the pattern fails here). -/
theorem scanRep_step_none {f : List Char → Option (List Char)} {repl : List Char}
    {fuel : Nat} {c : Char} {cs : List Char} {b : Bool}
    (h : b = true → f (c :: cs) = none) :
    scanRep f repl (fuel + 1) (c :: cs) b
      = (c :: (scanRep f repl fuel cs (c = '\n')).1,
          (scanRep f repl fuel cs (c = '\n')).2) := by
  cases b with
  | false => rfl
  | true => simp only [scanRep, if_true, h rfl]

/-- One scanner step consuming a whole match. -/
theorem scanRep_step_some {f : List Char → Option (List Char)} {repl : List Char}
    {fuel : Nat} {c : Char} {cs rest : List Char}
    (h : f (c :: cs) = some rest) :
    scanRep f repl (fuel + 1) (c :: cs) true
      = (repl ++ (scanRep f repl fuel rest false).1,
          (scanRep f repl fuel rest false).2 + 1) := by
  simp only [scanRep, if_true, h]

/-- Scanning a stretch in which the pattern matches nowhere leaves it
unchanged, for any fuel and flag. -/
theorem scanRep_clean {f : List Char → Option (List Char)} (repl : List Char) :
    ∀ s : List Char, (∀ q, q <:+ s → f q = none) →
      ∀ (fuel : Nat) (b : Bool), scanRep f repl fuel s b = (s, 0) := by
  intro s
  induction s with
  | nil => intro _ fuel b; cases fuel <;> rfl
  | cons c cs ih =>
    intro hf fuel b
    cases fuel with
    | zero => rfl
    | succ fuel =>
      rw [scanRep_step_none (fun _ => hf _ List.suffix_rfl)]
      rw [ih (fun q hq => hf q (hq.trans (List.suffix_cons c cs))) fuel]

/-- Skipping a marker-free, newline-terminated stretch `pre`: the scanner
copies it and arrives at the rest at a line start. -/
theorem scanRep_skip {f : List Char → Option (List Char)} (repl v : List Char) :
    ∀ pre : List Char, endsNl pre →
      (∀ q, q <:+ pre → q ≠ [] → f (q ++ v) = none) →
      ∀ (k : Nat) (b : Bool),
        scanRep f repl (pre.length + k) (pre ++ v) b
          = (pre ++ (scanRep f repl k v true).1, (scanRep f repl k v true).2) := by
  intro pre
  induction pre with
  | nil => intro hnl; rcases hnl with ⟨s0, hs0⟩; simp at hs0
  | cons c cs ih =>
    intro hnl hf k b
    have hfuel : (c :: cs).length + k = (cs.length + k) + 1 := by
      simp [List.length_cons]; omega
    have hstep : f (c :: (cs ++ v)) = none := by
      have h0 := hf (c :: cs) List.suffix_rfl (by simp)
      rwa [List.cons_append] at h0
    rw [hfuel, List.cons_append, scanRep_step_none (fun _ => hstep)]
    by_cases hcs : cs = []
    · subst hcs
      have hc : c = '\n' := by
        rcases hnl with ⟨s0, hs0⟩
        cases s0 with
        | nil => simpa using hs0
        | cons d ds =>
          exfalso
          have hlen := congrArg List.length hs0
          simp at hlen
      subst hc
      simp
    · have h1 := ih (endsNl_tail hnl hcs)
        (fun q hq hne => hf q (hq.trans (List.suffix_cons c cs)) hne) k (c = '\n')
      rw [h1]
      simp [List.cons_append]

/-- Skipping a newline-free stretch while not at a line start: no match is
ever attempted. -/
theorem scanRep_skip_noNl {f : List Char → Option (List Char)} (repl v : List Char) :
    ∀ u : List Char, (∀ c ∈ u, c ≠ '\n') →
      ∀ k : Nat,
        scanRep f repl (u.length + k) (u ++ v) false
          = (u ++ (scanRep f repl k v false).1, (scanRep f repl k v false).2) := by
  intro u
  induction u with
  | nil => intro _ k; simp
  | cons c cs ih =>
    intro hu k
    have hfuel : (c :: cs).length + k = (cs.length + k) + 1 := by
      simp [List.length_cons]; omega
    rw [hfuel, List.cons_append, scanRep_step_none (fun h => absurd h (by simp))]
    have hc : (decide (c = '\n')) = false := by
      simp only [decide_eq_false_iff_not]
      exact hu c (by simp)
    rw [hc, ih (fun d hd => hu d (by simp [hd])) k]
    simp

/-! ### Matches and non-matches at the marker blocks themselves -/

/-- `endsNl` for `'\n' :: m0` stretches. -/
theorem endsNl_cons_nl {m0 : List Char} (h : m0 = [] ∨ endsNl m0) :
    endsNl ('\n' :: m0) := by
  rcases h with rfl | ⟨x, rfl⟩
  · exact ⟨[], rfl⟩
  · exact ⟨'\n' :: x, by simp⟩

/-- The standalone pattern matches the standalone marker followed by an end
of line, consuming exactly the marker. -/
theorem matchAlone_at_mark {v : List Char} (hv : v = [] ∨ ∃ v2, v = '\n' :: v2) :
    matchAlone (aloneMark ++ v) = some v := by
  rcases hv with rfl | ⟨v2, rfl⟩
  · rfl
  · rfl

/-- The standalone pattern does not match at the region start marker (the
keyword continues with `:start`). -/
theorem matchAlone_at_startMark (v : List Char) : matchAlone (startMark ++ v) = none := rfl

/-- The standalone pattern does not match at the region end marker. -/
theorem matchAlone_at_endMark (v : List Char) : matchAlone (endMark ++ v) = none := rfl

/-- Neither anchored pattern matches at a newline. -/
theorem matchAlone_at_nl (v : List Char) : matchAlone ('\n' :: v) = none := rfl

/-- The region pattern does not match at a newline. -/
theorem matchRegion_at_nl (v : List Char) : matchRegion ('\n' :: v) = none := rfl

/-- The end-marker tail matches at the end marker followed by an end of
line. -/
theorem matchEndMark_at_endMark {v : List Char} (hv : v = [] ∨ ∃ v2, v = '\n' :: v2) :
    matchEndMark (endMark ++ v) = some v := by
  rcases hv with rfl | ⟨v2, rfl⟩
  · rfl
  · rfl

/-- The lazy search skips a marker-free, newline-terminated stretch. -/
theorem searchEnd_skip {w : List Char} :
    ∀ u : List Char, containsOpen u = false → endsNl u →
      searchEnd (u ++ w) = searchEnd w := by
  intro u
  induction u with
  | nil => intro _ _; rfl
  | cons c cs ih =>
    intro hc hnl
    have h1 : matchEndMark ((c :: cs) ++ w) = none := matchEndMark_none_of_pre hc hnl
    rw [List.cons_append] at h1
    rw [List.cons_append, searchEnd, h1]
    by_cases hcs : cs = []
    · subst hcs; rfl
    · exact ih (containsOpen_sfx (List.suffix_cons c cs) hc) (endsNl_tail hnl hcs)

/-- The region pattern at the start marker of a well-formed region consumes
the whole region: the lazy `.*?` stops at the first end-marker match, which
is the region's own end marker when the interior is marker-free. -/
theorem matchRegion_at_block {mid v : List Char} (hc : containsOpen mid = false)
    (hm : ∃ m0, mid = '\n' :: m0 ∧ (m0 = [] ∨ endsNl m0))
    (hv : v = [] ∨ ∃ v2, v = '\n' :: v2) :
    matchRegion (startMark ++ (mid ++ (endMark ++ v))) = some v := by
  have h1 : ∀ X, matchRegion (startMark ++ X) = searchEnd X := fun X => rfl
  rw [h1]
  rcases hm with ⟨m0, rfl, hm0⟩
  rw [searchEnd_skip _ hc (endsNl_cons_nl hm0)]
  have h2 : matchEndMark (endMark ++ v) = some v := matchEndMark_at_endMark hv
  cases hv with
  | inl h => subst h; rfl
  | inr h => rcases h with ⟨v2, rfl⟩; rfl

/-! ### Identity scans (no substitution), insensitive to fuel -/

/-- Prepending a marker-free newline-terminated stretch preserves an
identity scan. -/
theorem scanRep_id_skip {f : List Char → Option (List Char)} {repl v : List Char} :
    ∀ pre : List Char, endsNl pre →
      (∀ q, q <:+ pre → q ≠ [] → f (q ++ v) = none) →
      (∀ fuel, scanRep f repl fuel v true = (v, 0)) →
      ∀ (fuel : Nat) (b : Bool), scanRep f repl fuel (pre ++ v) b = (pre ++ v, 0) := by
  intro pre
  induction pre with
  | nil => intro hnl; rcases hnl with ⟨s0, hs0⟩; simp at hs0
  | cons c cs ih =>
    intro hnl hf htail fuel b
    cases fuel with
    | zero => rfl
    | succ fuel =>
      have hstep : f (c :: (cs ++ v)) = none := by
        have h0 := hf (c :: cs) List.suffix_rfl (by simp)
        rwa [List.cons_append] at h0
      rw [List.cons_append, scanRep_step_none (fun _ => hstep)]
      by_cases hcs : cs = []
      · subst hcs
        have hc : c = '\n' := by
          rcases hnl with ⟨s0, hs0⟩
          cases s0 with
          | nil => simpa using hs0
          | cons d ds =>
            exfalso
            have hlen := congrArg List.length hs0
            simp at hlen
        subst hc
        simp [htail fuel]
      · have h1 := ih (endsNl_tail hnl hcs)
          (fun q hq hne => hf q (hq.trans (List.suffix_cons c cs)) hne) htail fuel (c = '\n')
        rw [h1]

/-- Prepending a newline-free stretch preserves an identity scan started
away from a line start. -/
theorem scanRep_id_noNl {f : List Char → Option (List Char)} {repl v : List Char} :
    ∀ u : List Char, (∀ c ∈ u, c ≠ '\n') →
      (∀ fuel, scanRep f repl fuel v false = (v, 0)) →
      ∀ fuel : Nat, scanRep f repl fuel (u ++ v) false = (u ++ v, 0) := by
  intro u
  induction u with
  | nil => intro _ htail fuel; simpa using htail fuel
  | cons c cs ih =>
    intro hu htail fuel
    cases fuel with
    | zero => rfl
    | succ fuel =>
      rw [List.cons_append, scanRep_step_none (fun h => absurd h (by simp))]
      have hc : (decide (c = '\n')) = false := by
        simp only [decide_eq_false_iff_not]
        exact hu c (by simp)
      rw [hc, ih (fun d hd => hu d (by simp [hd])) htail fuel]

/-! ### The two replacement passes over marker-bearing contents -/

/-- The standalone pass over `pre ++ aloneMark ++ post` performs exactly one
substitution: the marker becomes the wrapped block. -/
theorem pass_alone {pre post T : List Char}
    (hpre : containsOpen pre = false) (hpnl : pre = [] ∨ endsNl pre)
    (hpost : containsOpen post = false) (hpostnl : post = [] ∨ ∃ p2, post = '\n' :: p2) :
    scanRep matchAlone (embedWrap T) (pre ++ (aloneMark ++ post)).length
        (pre ++ (aloneMark ++ post)) true
      = (pre ++ (embedWrap T ++ post), 1) := by
  have hclean : ∀ (fuel : Nat) (b : Bool),
      scanRep matchAlone (embedWrap T) fuel post b = (post, 0) :=
    scanRep_clean _ post (fun q hq => matchAlone_none_of_clean (containsOpen_sfx hq hpost))
  have hsh : aloneMark ++ post = '<' :: ("!-- gomarkdoc:Embed -->".toList ++ post) := rfl
  have hm : matchAlone ('<' :: ("!-- gomarkdoc:Embed -->".toList ++ post)) = some post := by
    rw [← hsh]
    exact matchAlone_at_mark hpostnl
  have hlen : (aloneMark ++ post).length = (23 + post.length) + 1 := by
    have h24 : aloneMark.length = 24 := rfl
    simp only [List.length_append, h24]
    omega
  have htail : scanRep matchAlone (embedWrap T) ((aloneMark ++ post).length)
      (aloneMark ++ post) true = (embedWrap T ++ post, 1) := by
    rw [hlen, hsh, scanRep_step_some hm, hclean]
  rcases hpnl with rfl | hnl
  · simpa using htail
  · have hf : ∀ q, q <:+ pre → q ≠ [] → matchAlone (q ++ (aloneMark ++ post)) = none :=
      fun q hq hne => matchAlone_none_of_pre (containsOpen_sfx hq hpre) (endsNl_sfx hq hne hnl)
    have hlen2 : (pre ++ (aloneMark ++ post)).length
        = pre.length + (aloneMark ++ post).length := by simp
    rw [hlen2, scanRep_skip (embedWrap T) (aloneMark ++ post) pre hnl hf _ true, htail]

/-- The region pass over `pre ++ startMark ++ mid ++ endMark ++ post`
performs exactly one substitution: the whole region becomes the wrapped
block. -/
theorem pass_region {pre mid post T : List Char}
    (hpre : containsOpen pre = false) (hpnl : pre = [] ∨ endsNl pre)
    (hmid : containsOpen mid = false)
    (hm : ∃ m0, mid = '\n' :: m0 ∧ (m0 = [] ∨ endsNl m0))
    (hpost : containsOpen post = false) (hpostnl : post = [] ∨ ∃ p2, post = '\n' :: p2) :
    scanRep matchRegion (embedWrap T) (pre ++ (startMark ++ (mid ++ (endMark ++ post)))).length
        (pre ++ (startMark ++ (mid ++ (endMark ++ post)))) true
      = (pre ++ (embedWrap T ++ post), 1) := by
  have hclean : ∀ (fuel : Nat) (b : Bool),
      scanRep matchRegion (embedWrap T) fuel post b = (post, 0) :=
    scanRep_clean _ post (fun q hq => matchRegion_none_of_clean (containsOpen_sfx hq hpost))
  have hsh : startMark ++ (mid ++ (endMark ++ post))
      = '<' :: ("!-- gomarkdoc:Embed:start -->".toList ++ (mid ++ (endMark ++ post))) := rfl
  have hm2 : matchRegion
      ('<' :: ("!-- gomarkdoc:Embed:start -->".toList ++ (mid ++ (endMark ++ post))))
      = some post := by
    rw [← hsh]
    exact matchRegion_at_block hmid hm hpostnl
  have hlen : (startMark ++ (mid ++ (endMark ++ post))).length
      = (29 + (mid.length + (28 + post.length))) + 1 := by
    have h30 : startMark.length = 30 := rfl
    have h28 : endMark.length = 28 := rfl
    simp only [List.length_append, h30, h28]
    omega
  have htail : scanRep matchRegion (embedWrap T)
      ((startMark ++ (mid ++ (endMark ++ post))).length)
      (startMark ++ (mid ++ (endMark ++ post))) true = (embedWrap T ++ post, 1) := by
    rw [hlen, hsh, scanRep_step_some hm2, hclean]
  rcases hpnl with rfl | hnl
  · simpa using htail
  · have hf : ∀ q, q <:+ pre → q ≠ [] →
        matchRegion (q ++ (startMark ++ (mid ++ (endMark ++ post)))) = none :=
      fun q hq hne => matchRegion_none_of_pre (containsOpen_sfx hq hpre) (endsNl_sfx hq hne hnl)
    have hlen2 : (pre ++ (startMark ++ (mid ++ (endMark ++ post)))).length
        = pre.length + (startMark ++ (mid ++ (endMark ++ post))).length := by simp
    rw [hlen2, scanRep_skip (embedWrap T) _ pre hnl hf _ true, htail]

/-- The standalone pass leaves a region block (and its marker-free
surroundings) untouched: the standalone keyword never matches inside the
region markers. -/
theorem pass_alone_region_id {pre mid0 post T : List Char}
    (hpre : containsOpen pre = false) (hpnl : pre = [] ∨ endsNl pre)
    (hmid : containsOpen mid0 = false) (hm0 : mid0 = [] ∨ endsNl mid0)
    (hpost : containsOpen post = false) :
    ∀ (fuel : Nat) (b : Bool),
      scanRep matchAlone (embedWrap T) fuel
          (pre ++ (startMark ++ ('\n' :: (mid0 ++ (endMark ++ post))))) b
        = (pre ++ (startMark ++ ('\n' :: (mid0 ++ (endMark ++ post)))), 0) := by
  have hclean : ∀ (fuel : Nat) (b : Bool),
      scanRep matchAlone (embedWrap T) fuel post b = (post, 0) :=
    scanRep_clean _ post (fun q hq => matchAlone_none_of_clean (containsOpen_sfx hq hpost))
  have hend : ∀ fuel, scanRep matchAlone (embedWrap T) fuel (endMark ++ post) true
      = (endMark ++ post, 0) := by
    intro fuel
    cases fuel with
    | zero => rfl
    | succ fuel =>
      have hsh : endMark ++ post = '<' :: ("!-- gomarkdoc:Embed:end -->".toList ++ post) := rfl
      have hm : matchAlone ('<' :: ("!-- gomarkdoc:Embed:end -->".toList ++ post)) = none := by
        rw [← hsh]
        exact matchAlone_at_endMark post
      rw [hsh, scanRep_step_none (fun _ => hm)]
      rw [(by decide : (decide ('<' = '\n')) = false)]
      rw [scanRep_id_noNl "!-- gomarkdoc:Embed:end -->".toList (by decide)
        (fun f2 => hclean f2 false) fuel]
  have hmidseg : ∀ fuel,
      scanRep matchAlone (embedWrap T) fuel ('\n' :: (mid0 ++ (endMark ++ post))) false
        = ('\n' :: (mid0 ++ (endMark ++ post)), 0) := by
    intro fuel
    cases fuel with
    | zero => rfl
    | succ fuel =>
      rw [scanRep_step_none (fun h => absurd h (by simp))]
      rw [(by decide : (decide ('\n' = '\n')) = true)]
      rcases hm0 with rfl | hnl0
      · simp [hend fuel]
      · rw [scanRep_id_skip mid0 hnl0
          (fun q hq hne =>
            matchAlone_none_of_pre (containsOpen_sfx hq hmid) (endsNl_sfx hq hne hnl0))
          hend fuel true]
  have hstartseg : ∀ (fuel : Nat) (b : Bool),
      scanRep matchAlone (embedWrap T) fuel
          (startMark ++ ('\n' :: (mid0 ++ (endMark ++ post)))) b
        = (startMark ++ ('\n' :: (mid0 ++ (endMark ++ post))), 0) := by
    intro fuel b
    cases fuel with
    | zero => rfl
    | succ fuel =>
      have hsh : startMark ++ ('\n' :: (mid0 ++ (endMark ++ post)))
          = '<' :: ("!-- gomarkdoc:Embed:start -->".toList
              ++ ('\n' :: (mid0 ++ (endMark ++ post)))) := rfl
      have hm : matchAlone ('<' :: ("!-- gomarkdoc:Embed:start -->".toList
          ++ ('\n' :: (mid0 ++ (endMark ++ post))))) = none := by
        rw [← hsh]
        exact matchAlone_at_startMark _
      rw [hsh, scanRep_step_none (fun _ => hm)]
      rw [(by decide : (decide ('<' = '\n')) = false)]
      rw [scanRep_id_noNl "!-- gomarkdoc:Embed:start -->".toList (by decide) hmidseg fuel]
  rcases hpnl with rfl | hnl
  · intro fuel b
    simpa using hstartseg fuel b
  · intro fuel b
    exact scanRep_id_skip pre hnl
      (fun q hq hne => matchAlone_none_of_pre (containsOpen_sfx hq hpre) (endsNl_sfx hq hne hnl))
      (fun f2 => hstartseg f2 true) fuel b

/-! ### Master merge theorems -/

/-- `containsOpen` ignores a leading newline. -/
theorem containsOpen_cons_nl (x : List Char) : containsOpen ('\n' :: x) = containsOpen x := rfl

/-- The wrapped block splits as a region: `embedWrap T ++ post` is
`startMark ++ mid ++ endMark ++ post` with interior `"\n\n" ++ T ++ "\n\n"`. -/
theorem embedWrap_shape (T post : List Char) :
    embedWrap T ++ post
      = startMark ++ (('\n' :: ('\n' :: (T ++ nl2))) ++ (endMark ++ post)) := by
  simp [embedWrap, nl2, List.append_assoc]

/-- The wrapped block's interior is marker-free when the text is. -/
theorem embedWrap_mid_clean {T : List Char} (hT : containsOpen T = false) :
    containsOpen ('\n' :: ('\n' :: (T ++ nl2))) = false := by
  rw [containsOpen_cons_nl, containsOpen_cons_nl]
  have h2 : containsOpen ('\n' :: ['\n']) = false := by decide
  have h3 := containsOpen_append_nl hT h2
  simpa [nl2] using h3

/-- The wrapped block's interior, as `'\n' :: mid0`, has a newline-terminated
`mid0`. -/
theorem embedWrap_mid_shape (T : List Char) :
    ∃ m0, ('\n' :: ('\n' :: (T ++ nl2))) = '\n' :: m0 ∧ (m0 = [] ∨ endsNl m0) := by
  refine ⟨'\n' :: (T ++ nl2), rfl, Or.inr ⟨'\n' :: (T ++ ['\n']), ?_⟩⟩
  simp [nl2]

/-- Merging into a file consisting of marker-free text around a standalone
marker splices the wrapped block in place of the marker (and nothing else),
provided the rendered text is itself marker-free. -/
theorem EmbedContents_standalone {pre post T : List Char}
    (hpre : containsOpen pre = false) (hpnl : pre = [] ∨ endsNl pre)
    (hpost : containsOpen post = false) (hpostnl : post = [] ∨ ∃ p2, post = '\n' :: p2)
    (hT : containsOpen T = false) :
    EmbedContents (some (pre ++ (aloneMark ++ post))) T = pre ++ (embedWrap T ++ post) := by
  simp only [EmbedContents]
  rw [pass_alone hpre hpnl hpost hpostnl]
  rw [embedWrap_shape]
  rw [pass_region hpre hpnl (embedWrap_mid_clean hT) (embedWrap_mid_shape T) hpost hpostnl]
  rw [embedWrap_shape]
  norm_num

/-- Merging into a file consisting of marker-free text around a start–end
region (with marker-free interior `'\n' :: mid0`) splices the wrapped block
in place of the region. The rendered text is unconstrained: replacements are
not rescanned. -/
theorem EmbedContents_region {pre mid0 post T : List Char}
    (hpre : containsOpen pre = false) (hpnl : pre = [] ∨ endsNl pre)
    (hmid : containsOpen mid0 = false) (hm0 : mid0 = [] ∨ endsNl mid0)
    (hpost : containsOpen post = false) (hpostnl : post = [] ∨ ∃ p2, post = '\n' :: p2) :
    EmbedContents (some (pre ++ (startMark ++ ('\n' :: (mid0 ++ (endMark ++ post)))))) T
      = pre ++ (embedWrap T ++ post) := by
  simp only [EmbedContents]
  rw [pass_alone_region_id hpre hpnl hmid hm0 hpost]
  have hm : ∃ m0, ('\n' :: mid0) = '\n' :: m0 ∧ (m0 = [] ∨ endsNl m0) := ⟨mid0, rfl, hm0⟩
  have hmid2 : containsOpen ('\n' :: mid0) = false := by
    rwa [containsOpen_cons_nl]
  have h1 : pre ++ (startMark ++ ('\n' :: (mid0 ++ (endMark ++ post))))
      = pre ++ (startMark ++ (('\n' :: mid0) ++ (endMark ++ post))) := by simp
  rw [h1, pass_region hpre hpnl hmid2 hm hpost hpostnl]
  norm_num

-- concrete instances exercising the masters
example :
    EmbedContents (some ("# A\n".toList ++ (aloneMark ++ "\nrest".toList))) "docs".toList =
      "# A\n".toList ++ (embedWrap "docs".toList ++ "\nrest".toList) :=
  EmbedContents_standalone (by decide) (Or.inr ⟨"# A".toList, by decide⟩) (by decide)
    (Or.inr ⟨"rest".toList, by decide⟩) (by decide)
example :
    EmbedContents (some (embedWrap "docs".toList)) "docs".toList = embedWrap "docs".toList := by
  have h := @EmbedContents_region [] ('\n' :: ("docs".toList ++ nl2)) [] "docs".toList
    (by decide) (Or.inl rfl) (by decide)
    (Or.inr ⟨'\n' :: ("docs".toList ++ ['\n']), by simp [nl2]⟩) (by decide) (Or.inl rfl)
  simpa [embedWrap, nl2, List.append_assoc] using h

/-! ## Destination grouping and per-unit dispatch: `WriteOutput` (cmd/output.go)

```go
filePkgs := make(map[string][]*lang.Package)
for _, spec := range specs {
    if spec.Pkg == nil { continue }
    filePkgs[spec.OutputFile] = append(filePkgs[spec.OutputFile], spec.Pkg)
}
for fileName, pkgs := range filePkgs {
    ...
    if opts.Embed && fileName != "" { text = EmbedContents(log, fileName, text) }
    switch {
    case fileName == "":  fmt.Fprint(os.Stdout, text)
    case opts.Check:      ... CheckFile ...
    default:              ... WriteFile ...
    }
}
```

The contents of the map are deterministic (which keys exist, and the order
of each key's slice); the `range` iteration order over a Go map is
unspecified (deliberately randomized), so it is modelled as an explicit
`order` parameter ranging over the permutations of the key set. Models are
abstracted to `Nat` identifiers. -/

/-- `PackageSpec` (the source struct; `Pkg` abstracted to an identifier,
`nil` = `none`). -/
structure PackageSpec where
  Dir : List Char := []
  ImportPath : List Char := []
  IsWildcard : Bool := false
  IsLocal : Bool := false
  OutputFile : List Char := []
  Pkg : Option Nat := none
deriving DecidableEq

/-- `filePkgs[k] = append(filePkgs[k], v)`: append to the entry for `k`,
creating it if missing (association-list view of the Go map; entry *values*
and key *membership* are deterministic, iteration order is not). -/
def insertPkg : List (List Char × List Nat) → List Char → Nat → List (List Char × List Nat)
  | [], k, v => [(k, [v])]
  | (k0, vs) :: rest, k, v =>
    if k0 = k then (k0, vs ++ [v]) :: rest
    else (k0, vs) :: insertPkg rest k v

/-- The first loop of `WriteOutput`: fill `filePkgs`, skipping descriptors
with an absent model. The association list records keys in first-seen
order. -/
def buildFilePkgs (specs : List PackageSpec) : List (List Char × List Nat) :=
  specs.foldl
    (fun m s =>
      match s.Pkg with
      | none => m
      | some p => insertPkg m s.OutputFile p) []

/-- Go map read `m[k]` (nil slice for a missing key). -/
def lookupPkgs (m : List (List Char × List Nat)) (k : List Char) : List Nat :=
  match m.find? (fun e => e.1 = k) with
  | some e => e.2
  | none => []

/-- The key set of `filePkgs`, listed in first-seen order of destinations. -/
def mapKeys (specs : List PackageSpec) : List (List Char) :=
  (buildFilePkgs specs).map Prod.fst

/-- The destination units produced by the `range filePkgs` loop when the map
iteration happens to visit the keys in `order` (Go specifies no order; every
permutation of `mapKeys specs` is a possible `order`). -/
def destUnits (specs : List PackageSpec) (order : List (List Char)) :
    List (List Char × List Nat) :=
  order.map (fun k => (k, lookupPkgs (buildFilePkgs specs) k))

/-- Declarative description of one unit's models: the models of the
descriptors routed to `k`, in descriptor order, absent models dropped. -/
def destModels (specs : List PackageSpec) (k : List Char) : List Nat :=
  (specs.filter (fun s => s.OutputFile = k)).filterMap (fun s => s.Pkg)

theorem lookupPkgs_nil (k : List Char) : lookupPkgs [] k = [] := rfl

theorem lookupPkgs_insertPkg (m : List (List Char × List Nat)) (k0 k : List Char) (v : Nat) :
    lookupPkgs (insertPkg m k0 v) k
      = lookupPkgs m k ++ (if k0 = k then [v] else []) := by
  induction m with
  | nil =>
    by_cases h : k0 = k
    · simp [insertPkg, lookupPkgs, List.find?, h]
    · simp [insertPkg, lookupPkgs, List.find?, h]
  | cons e rest ih =>
    obtain ⟨ke, ve⟩ := e
    by_cases h1 : ke = k0
    · subst h1
      by_cases h2 : ke = k
      · subst h2
        simp [insertPkg, lookupPkgs, List.find?]
      · simp [insertPkg, lookupPkgs, List.find?, h2]
    · by_cases h2 : ke = k
      · subst h2
        simp [insertPkg, lookupPkgs, List.find?, Ne.symm h1, h1]
      · simp only [insertPkg, if_neg h1]
        simp only [lookupPkgs, List.find?, decide_eq_true_eq] at ih ⊢
        simp [h2, ih]

/-- The map built by the loop, read at any key, gives exactly the
declarative per-destination model list. -/
theorem lookupPkgs_buildFilePkgs (specs : List PackageSpec) (k : List Char) :
    lookupPkgs (buildFilePkgs specs) k = destModels specs k := by
  suffices h : ∀ m, lookupPkgs (specs.foldl
      (fun m s =>
        match s.Pkg with
        | none => m
        | some p => insertPkg m s.OutputFile p) m) k
      = lookupPkgs m k ++ destModels specs k by
    simpa [buildFilePkgs, lookupPkgs_nil] using h []
  induction specs with
  | nil => intro m; simp [destModels]
  | cons s ss ih =>
    intro m
    simp only [List.foldl_cons]
    cases hp : s.Pkg with
    | none =>
      rw [ih m]
      have hd : destModels (s :: ss) k = destModels ss k := by
        simp only [destModels, List.filter_cons]
        split
        · simp [List.filterMap_cons, hp]
        · rfl
      rw [hd]
    | some p =>
      rw [ih (insertPkg m s.OutputFile p), lookupPkgs_insertPkg]
      by_cases hk : s.OutputFile = k
      · have hd : destModels (s :: ss) k = p :: destModels ss k := by
          simp [destModels, List.filter_cons, hk, List.filterMap_cons, hp]
        rw [hd, if_pos hk]
        simp
      · have hd : destModels (s :: ss) k = destModels ss k := by
          simp [destModels, List.filter_cons, hk]
        rw [hd, if_neg hk]
        simp

theorem insertPkg_keys (m : List (List Char × List Nat)) (k : List Char) (v : Nat) :
    (insertPkg m k v).map Prod.fst
      = if k ∈ m.map Prod.fst then m.map Prod.fst else m.map Prod.fst ++ [k] := by
  induction m with
  | nil => simp [insertPkg]
  | cons e rest ih =>
    obtain ⟨ke, ve⟩ := e
    by_cases h : ke = k
    · subst h
      simp [insertPkg]
    · simp only [insertPkg, if_neg h, List.map_cons, ih]
      by_cases h2 : k ∈ rest.map Prod.fst
      · simp [h2, Ne.symm h]
      · simp [h2, Ne.symm h]

/-- The key list of the built map has no duplicates (each destination is
folded into a single unit). -/
theorem mapKeys_nodup (specs : List PackageSpec) : (mapKeys specs).Nodup := by
  suffices h : ∀ m : List (List Char × List Nat), (m.map Prod.fst).Nodup →
      ((specs.foldl
        (fun m s =>
          match s.Pkg with
          | none => m
          | some p => insertPkg m s.OutputFile p) m).map Prod.fst).Nodup by
    exact h [] (by simp)
  induction specs with
  | nil => intro m hm; simpa using hm
  | cons s ss ih =>
    intro m hm
    simp only [List.foldl_cons]
    cases hp : s.Pkg with
    | none => exact ih m hm
    | some p =>
      refine ih _ ?_
      rw [insertPkg_keys]
      split
      · exact hm
      · rename_i hnm
        rw [List.nodup_append]
        refine ⟨hm, List.nodup_singleton _, fun a ha hb => ?_⟩
        rw [List.mem_singleton] at hb
        exact hnm (hb ▸ ha)

/-! ## Per-unit reconciliation dispatch -/

/-- The observable action of `WriteOutput` for one destination unit. -/
inductive OutAction
  | printed (text : List Char)
  | checked (path text : List Char)
  | wrote (path text : List Char)
deriving DecidableEq

/-- The per-unit dispatch of `WriteOutput` (cmd/output.go lines 59–76):
embed preprocessing only when `opts.Embed` is set *and* the destination is
non-empty; then print to stdout for an empty destination, check under
`opts.Check`, and write otherwise. `fileData` is what reading the
destination file for embedding would return. -/
def writeOutputUnit (embedFlag checkFlag : Bool) (fileData : Option (List Char))
    (fileName text : List Char) : OutAction :=
  let text2 := if embedFlag ∧ fileName ≠ [] then EmbedContents fileData text else text
  if fileName = [] then .printed text2
  else if checkFlag then .checked fileName text2
  else .wrote fileName text2

/-! ## PathExpander: `GetSpecs`, `IsIgnoredDir`, `IsLocalPath` (cmd/command.go)

The host is modelled as unix: `os.PathSeparator` is `'/'` and
`filepath.FromSlash` is the identity. The filesystem is a map from a
directory path to its entry list (`ioutil.ReadDir` returns entries sorted by
name, and model filesystems below list them in that order); an entry is a
(name, IsDir) pair. `none` models a `ReadDir` error (missing or unreadable
directory), which silently terminates that branch of the traversal. The
queue loop (`container/list` with removal of the visited front) is an
index-free worklist; `fuel` bounds the number of loop iterations and is
chosen at least the number of reachable directories wherever the model is
applied, so it never runs out there. -/

/-- `strings.HasPrefix`. -/
def hasPre (lit s : List Char) : Bool :=
  (dropLit lit s).isSome

/-- `strings.HasSuffix`. -/
def hasSfx (sfx s : List Char) : Bool :=
  hasPre sfx.reverse s.reverse

/-- `IsLocalPath` (cmd/command.go): begins with `"./"` (`cwdPathPrefix`),
`"../"` (`parentPathPrefix`), or is absolute (unix: begins with `'/'`). -/
def IsLocalPath (path : List Char) : Bool :=
  hasPre "./".toList path || hasPre "../".toList path || path.head? = some '/'

/-- `ignoredDirs` (cmd/command.go). -/
def ignoredDirs : List (List Char) := [".git".toList]

/-- `IsIgnoredDir` (cmd/command.go). -/
def IsIgnoredDir (dirname : List Char) : Bool :=
  ignoredDirs.any (fun ignored => ignored = dirname)

/-- Split a path on `'/'` (helper for `filepath.Clean`). -/
def splitSlash (s : List Char) : List (List Char) :=
  splitGo '/' s

/-- The element loop of `filepath.Clean` (unix): empty and `"."` elements
vanish; `".."` pops the previous element, stays at the start of a relative
path, and vanishes at the root of a rooted path. `acc` holds the processed
elements in reverse. -/
def cleanParts (rooted : Bool) : List (List Char) → List (List Char) → List (List Char)
  | acc, [] => acc.reverse
  | acc, p :: ps =>
    if p = [] || p = ".".toList then cleanParts rooted acc ps
    else if p = "..".toList then
      match acc with
      | [] => if rooted then cleanParts rooted [] ps else cleanParts rooted [p] ps
      | a :: acc2 =>
        if a = "..".toList then cleanParts rooted (p :: a :: acc2) ps
        else cleanParts rooted acc2 ps
    else cleanParts rooted (p :: acc) ps

/-- Join path elements with `'/'`. -/
def joinSlash : List (List Char) → List Char
  | [] => []
  | [p] => p
  | p :: ps => p ++ '/' :: joinSlash ps

/-- `filepath.Clean` (unix). -/
def filepathClean (path : List Char) : List Char :=
  if path = [] then ".".toList
  else
    let rooted := path.head? = some '/'
    let parts := cleanParts rooted [] (splitSlash path)
    if parts = [] then (if rooted then "/".toList else ".".toList)
    else (if rooted then '/' :: joinSlash parts else joinSlash parts)

example : filepathClean "./pkgB//inner".toList = "pkgB/inner".toList := by decide
example : filepathClean "a/b/../c/".toList = "a/c".toList := by decide
example : filepathClean "/a/../..".toList = "/".toList := by decide
example : filepathClean "a/../../b".toList = "../b".toList := by decide

/-- `filepath.Join` of two non-empty elements: join with `'/'`, then
`Clean`. -/
def filepathJoin (a b : List Char) : List Char :=
  filepathClean (a ++ '/' :: b)

/-- The breadth-first queue loop of `GetSpecs`: process the front directory,
skip ignored entries, and for each remaining sub-directory re-prefix with
`"./"` if `filepath.Join` stripped the local marker, emit a wildcard local
descriptor and enqueue it. -/
def expandQueue (fs : List Char → Option (List (List Char × Bool))) :
    Nat → List (List Char) → List PackageSpec
  | 0, _ => []
  | _ + 1, [] => []
  | fuel + 1, p :: rest =>
    match fs p with
    | none => expandQueue fs fuel rest
    | some entries =>
      let subs := (entries.filter (fun e => !(IsIgnoredDir e.1) && e.2)).map
        (fun e =>
          let subPath := filepathJoin p e.1
          if IsLocalPath subPath then subPath else "./".toList ++ subPath)
      subs.map (fun sp =>
          { Dir := sp, ImportPath := sp, IsWildcard := true, IsLocal := true })
        ++ expandQueue fs fuel (rest ++ subs)

/-- `GetSpecs` (cmd/command.go). A non-recursive argument yields one
descriptor (local or importable-by-name); a recursive argument whose trimmed
form (`path[0 : len(path)-3]`, which keeps the separator) is not local is
preserved verbatim as a non-wildcard descriptor; otherwise the trimmed
directory becomes a wildcard descriptor followed by its breadth-first
expansion. -/
def GetSpecs (fs : List Char → Option (List (List Char × Bool))) (fuel : Nat)
    (paths : List (List Char)) : List PackageSpec :=
  paths.foldl
    (fun expanded path =>
      if hasSfx "/...".toList path = false then
        let isLocal := IsLocalPath path
        expanded ++ [{ Dir := if isLocal then path else ".".toList,
                       ImportPath := path, IsWildcard := false, IsLocal := isLocal }]
      else
        let trimmedPath := path.take (path.length - 3)
        if IsLocalPath trimmedPath = false then
          expanded ++ [{ Dir := ".".toList, ImportPath := path,
                         IsWildcard := false, IsLocal := false }]
        else
          expanded
            ++ [{ Dir := trimmedPath, ImportPath := trimmedPath,
                  IsWildcard := true, IsLocal := true }]
            ++ expandQueue fs fuel [trimmedPath])
    []

/-- The filesystem of the C6 scenario: `pkgB` holds an ignored `.git` and a
normal `inner` (entry order = `ReadDir`'s name order). -/
def demoFS : List Char → Option (List (List Char × Bool)) := fun p =>
  if p = "./pkgB/".toList then some [(".git".toList, true), ("inner".toList, true)]
  else if p = "./pkgB/inner".toList then some []
  else none

example :
    GetSpecs demoFS 8 ["./pkgA".toList, "./pkgB/...".toList] =
      [{ Dir := "./pkgA".toList, ImportPath := "./pkgA".toList,
         IsWildcard := false, IsLocal := true },
       { Dir := "./pkgB/".toList, ImportPath := "./pkgB/".toList,
         IsWildcard := true, IsLocal := true },
       { Dir := "./pkgB/inner".toList, ImportPath := "./pkgB/inner".toList,
         IsWildcard := true, IsLocal := true }] := by decide

/-! ## Claim theorems -/

/-- A small demo spec list with two loaded destinations, `"a"` first. -/
def specsAB : List PackageSpec :=
  [{ OutputFile := "a".toList, Pkg := some 0 },
   { OutputFile := "b".toList, Pkg := some 1 }]

/-- C1 (code behavior at the failing input): merging rendered text into an
existing, marker-free file appends the *bare* text after a blank line — the
appended material does not include the markers, contrary to the claim (the
sibling not-found branch of `EmbedContents` does write the wrapped block). -/
theorem c1_zero_marker_append_bare_text :
    EmbedContents (some "# T".toList) "docs".toList = "# T".toList ++ nl2 ++ "docs".toList
    ∧ EmbedContents (some "# T".toList) "docs".toList
        ≠ "# T".toList ++ nl2 ++ embedWrap "docs".toList := by
  constructor
  · decide
  · decide

/-- C2 (code behavior at the failing input): under the Verify policy with a
missing destination file, `CheckFile` returns the wrapped open-failure error
(`"failed to open file ... for checking: ..."`), not the drift error: the
`err == os.ErrNotExist` comparison never matches the `*fs.PathError` that
`os.Open` returns. When the file exists with content equal to the rendered
text, the check succeeds (and `CheckFile` has no write effect in any
branch). -/
theorem c2_checkfile_missing_file :
    CheckFile (fun _ => none) [(42 : Fin 256)] "README.md".toList
        = .openFailErr (.pathError "open".toList "README.md".toList .errNotExist)
    ∧ CheckFile (fun _ => none) [(42 : Fin 256)] "README.md".toList ≠ .driftErr
    ∧ CheckFile (fun _ => some [(42 : Fin 256)]) [(42 : Fin 256)] "README.md".toList = .ok := by
  refine ⟨by decide, by decide, by decide⟩

/-- C3 (counterexample): the marker keyword is *not* case-insensitive. A file
containing the lower-case standalone marker `<!-- gomarkdoc:embed -->` on its
own line is not spliced: the text is appended instead, and the result is not
the replacement the claim describes. -/
theorem c3_lowercase_marker_not_replaced :
    EmbedContents (some "# A\n<!-- gomarkdoc:embed -->".toList) "docs".toList
        = "# A\n<!-- gomarkdoc:embed -->".toList ++ nl2 ++ "docs".toList
    ∧ EmbedContents (some "# A\n<!-- gomarkdoc:embed -->".toList) "docs".toList
        ≠ "# A\n".toList ++ embedWrap "docs".toList := by
  constructor
  · decide
  · decide

/-- C3 (amended): with the exact casing of the source's regexes
(`gomarkdoc:Embed`), merging a file made of marker-free text around a
standalone marker — or around a start…end region with marker-free interior —
replaces the marker (resp. the whole region) with the wrapped block instead
of appending. -/
theorem c3_exact_case_markers_replaced :
    (∀ pre post T : List Char,
      containsOpen pre = false → (pre = [] ∨ endsNl pre) →
      containsOpen post = false → (post = [] ∨ ∃ p2, post = '\n' :: p2) →
      containsOpen T = false →
      EmbedContents (some (pre ++ (aloneMark ++ post))) T = pre ++ (embedWrap T ++ post))
    ∧ (∀ pre mid0 post T : List Char,
      containsOpen pre = false → (pre = [] ∨ endsNl pre) →
      containsOpen mid0 = false → (mid0 = [] ∨ endsNl mid0) →
      containsOpen post = false → (post = [] ∨ ∃ p2, post = '\n' :: p2) →
      EmbedContents (some (pre ++ (startMark ++ ('\n' :: (mid0 ++ (endMark ++ post)))))) T
        = pre ++ (embedWrap T ++ post)) :=
  ⟨fun _ _ _ h1 h2 h3 h4 h5 => EmbedContents_standalone h1 h2 h3 h4 h5,
   fun _ _ _ _ h1 h2 h3 h4 h5 h6 => EmbedContents_region h1 h2 h3 h4 h5 h6⟩

/-- C3 (witness): the amended theorem applied at concrete inputs, one per
marker form. -/
theorem c3_exact_case_markers_replaced_witness :
    EmbedContents (some ("# A\n".toList ++ (aloneMark ++ "\nrest".toList))) "docs".toList
        = "# A\n".toList ++ (embedWrap "docs".toList ++ "\nrest".toList)
    ∧ EmbedContents
        (some ("x\n".toList ++ (startMark ++ ('\n' :: ("old\n".toList ++ (endMark ++ []))))))
        "new".toList
        = "x\n".toList ++ (embedWrap "new".toList ++ []) :=
  ⟨c3_exact_case_markers_replaced.1 "# A\n".toList "\nrest".toList "docs".toList
      (by decide) (Or.inr ⟨"# A".toList, by decide⟩)
      (by decide) (Or.inr ⟨"rest".toList, by decide⟩) (by decide),
   c3_exact_case_markers_replaced.2 "x\n".toList "old\n".toList [] "new".toList
      (by decide) (Or.inr ⟨"x".toList, by decide⟩)
      (by decide) (Or.inr ⟨"old".toList, by decide⟩)
      (by decide) (Or.inl rfl)⟩

/-- C4 (counterexample): the fallback string `"-tags=foo,bar"` does *not*
produce `["foo","bar"]`: the registered flag is named `Tags`, so the
lower-case `-tags` is an unknown flag, `Parse` fails, and the resolver
returns the empty list. -/
theorem c4_lowercase_tags_not_recognized :
    DefaultTags (some "-tags=foo,bar".toList) = []
    ∧ ([] : List (List Char)) ≠ ["foo".toList, "bar".toList] := by
  constructor
  · decide
  · decide

/-- C4 (amended): the tag resolver recognizes the exact-cased `-Tags`
option: `"-Tags=foo,bar"` yields `["foo","bar"]`; an unknown option such as
`"-other=x"` (or the lower-case `"-tags=foo,bar"`) and an unparsable string
such as `"-=x"` each yield the empty tag list without raising an error. -/
theorem c4_tag_fallback :
    DefaultTags (some "-Tags=foo,bar".toList) = ["foo".toList, "bar".toList]
    ∧ DefaultTags (some "-other=x".toList) = []
    ∧ DefaultTags (some "-=x".toList) = [] := by
  refine ⟨by decide, by decide, by decide⟩

/-- C5 (counterexample): the destination units are produced by iterating a
Go map, whose order is unspecified; the permutation `["b","a"]` of the key
set is a possible iteration order, and under it the unit sequence does not
preserve the first-seen order of destinations (`mapKeys`, here
`["a","b"]`). -/
theorem c5_map_order_not_first_seen :
    List.Perm ["b".toList, "a".toList] (mapKeys specsAB)
    ∧ (destUnits specsAB ["b".toList, "a".toList]).map Prod.fst ≠ mapKeys specsAB := by
  constructor
  · have h : mapKeys specsAB = ["a".toList, "b".toList] := by decide
    rw [h]
    exact List.Perm.swap "a".toList "b".toList []
  · decide

/-- C5 (amended): for every list of loaded descriptors and every possible
map iteration order (a permutation of the key set), the grouping folds the
descriptors with equal destination into one unit per destination (the order
is duplicate-free), each unit carries exactly the models routed to its
destination in descriptor discovery order with absent models excluded — but
the order of the units across destinations is the iteration order, not
necessarily the first-seen order. -/
theorem c5_grouping :
    ∀ (specs : List PackageSpec) (order : List (List Char)),
      order.Perm (mapKeys specs) →
      destUnits specs order = order.map (fun k => (k, destModels specs k))
      ∧ (destUnits specs order).map Prod.fst = order
      ∧ order.Nodup := by
  intro specs order hperm
  refine ⟨?_, ?_, ?_⟩
  · simp [destUnits, lookupPkgs_buildFilePkgs]
  · simp only [destUnits, List.map_map]
    have h : (Prod.fst ∘ fun k : List Char => (k, lookupPkgs (buildFilePkgs specs) k))
        = fun k => k := rfl
    rw [h, List.map_id']
  · exact (hperm.nodup_iff).mpr (mapKeys_nodup specs)

/-- C5 (witness): the amended theorem applied to the demo descriptors and
the reversed iteration order. -/
theorem c5_grouping_witness :
    List.Perm ["b".toList, "a".toList] (mapKeys specsAB)
    ∧ (destUnits specsAB ["b".toList, "a".toList]
        = [("b".toList, [1]), ("a".toList, [0])]
      ∧ (destUnits specsAB ["b".toList, "a".toList]).map Prod.fst
          = ["b".toList, "a".toList]
      ∧ (["b".toList, "a".toList] : List (List Char)).Nodup) := by
  have hperm : List.Perm ["b".toList, "a".toList] (mapKeys specsAB) := by
    have h : mapKeys specsAB = ["a".toList, "b".toList] := by decide
    rw [h]
    exact List.Perm.swap "a".toList "b".toList []
  have h2 := c5_grouping specsAB ["b".toList, "a".toList] hperm
  refine ⟨hperm, ?_, h2.2.1, h2.2.2⟩
  rw [h2.1]
  decide

/-- C6: expanding `["./pkgA", "./pkgB/..."]` over a filesystem where `pkgB`
contains the ignored `.git` and the ordinary `inner` yields exactly, in
order: `pkgA` as a non-wildcard local descriptor, then `pkgB` and
`pkgB/inner` as wildcard local descriptors, with no descriptor for `.git`
(the recursive trim keeps the separator, so the `pkgB` descriptor reads
`./pkgB/`). -/
theorem c6_expansion_scenario :
    GetSpecs demoFS 8 ["./pkgA".toList, "./pkgB/...".toList] =
      [{ Dir := "./pkgA".toList, ImportPath := "./pkgA".toList,
         IsWildcard := false, IsLocal := true },
       { Dir := "./pkgB/".toList, ImportPath := "./pkgB/".toList,
         IsWildcard := true, IsLocal := true },
       { Dir := "./pkgB/inner".toList, ImportPath := "./pkgB/inner".toList,
         IsWildcard := true, IsLocal := true }] := by
  decide

/-- C7 (counterexample): merge is *not* idempotent for every rendered text.
For `T` equal to the end-marker line itself, merging `T` into a file that is
exactly the wrapped region for `T` duplicates material instead of returning
the file unchanged (the lazy region match stops at the first end marker,
inside `T`). -/
theorem c7_not_idempotent_marker_text :
    EmbedContents (some (embedWrap endMark)) endMark ≠ embedWrap endMark := by
  decide

/-- C7 (amended): merge is idempotent for every rendered text `T` that does
not itself contain the comment opener `<!--` (in particular, no marker
text): merging `T` into a file whose content is exactly the wrapped region
for `T` returns the content byte-identically. -/
theorem c7_merge_idempotent :
    ∀ T : List Char, containsOpen T = false →
      EmbedContents (some (embedWrap T)) T = embedWrap T := by
  intro T hT
  have hmid : containsOpen ('\n' :: (T ++ nl2)) = false := by
    rw [containsOpen_cons_nl]
    have h2 : containsOpen ('\n' :: ['\n']) = false := by decide
    have h3 := containsOpen_append_nl hT h2
    simpa [nl2] using h3
  have h := @EmbedContents_region [] ('\n' :: (T ++ nl2)) [] T
    (by decide) (Or.inl rfl) hmid
    (Or.inr ⟨'\n' :: (T ++ ['\n']), by simp [nl2]⟩) (by decide) (Or.inl rfl)
  simpa [embedWrap, nl2, List.append_assoc] using h

/-- C7 (witness): idempotence at the concrete rendered text `"docs"`. -/
theorem c7_merge_idempotent_witness :
    containsOpen "docs".toList = false
    ∧ EmbedContents (some (embedWrap "docs".toList)) "docs".toList
        = embedWrap "docs".toList :=
  ⟨by decide, c7_merge_idempotent "docs".toList (by decide)⟩

/-- C8 (counterexample, negation of the claim's third part): `Compare` does
*not* return false for every pair of differing streams — it compares
128-bit FNV-1 digests, and by pigeonhole two distinct 17-byte streams share
a digest and compare equal. -/
theorem c8_digest_collision :
    ∃ r1 r2 : List (Fin 256), r1 ≠ r2 ∧ Compare r1 r2 = true := by
  have hcard : Fintype.card (Fin (2 ^ 128)) < Fintype.card (Fin 17 → Fin 256) := by
    simp only [Fintype.card_fun, Fintype.card_fin]
    have h : (256 : Nat) ^ 17 = 2 ^ 136 := by
      norm_num [show (256 : Nat) = 2 ^ 8 from rfl, ← pow_mul]
    rw [h]
    exact Nat.pow_lt_pow_right (by norm_num) (by norm_num)
  obtain ⟨f, g, hfg, heq⟩ := Fintype.exists_ne_map_eq_of_card_lt
    (fun v : Fin 17 → Fin 256 => (⟨fnv128 (List.ofFn v), fnv128_lt _⟩ : Fin (2 ^ 128))) hcard
  refine ⟨List.ofFn f, List.ofFn g, ?_, ?_⟩
  · intro h
    exact hfg (List.ofFn_injective h)
  · simpa [Compare] using congrArg Fin.val heq

/-- C8 (amended): `Compare` is reflexive and symmetric, and whenever it
returns false the two streams differ; but equality of the digests — not byte
equality — is what is decided, so distinct streams may compare equal. -/
theorem c8_compare_properties :
    (∀ x : List (Fin 256), Compare x x = true)
    ∧ (∀ x y : List (Fin 256), Compare x y = Compare y x)
    ∧ (∀ x y : List (Fin 256), Compare x y = false → x ≠ y) := by
  refine ⟨fun x => by simp [Compare], fun x y => ?_, fun x y h hxy => ?_⟩
  · by_cases h : fnv128 x = fnv128 y
    · simp [Compare, h]
    · have h2 : fnv128 y ≠ fnv128 x := fun hh => h hh.symm
      simp [Compare, h, h2]
  · subst hxy
    simp [Compare] at h

/-- C8 (witness): the amended theorem's conditional part applied at
concrete distinct one-byte streams. -/
theorem c8_compare_properties_witness :
    Compare [(0 : Fin 256)] [(1 : Fin 256)] = false
    ∧ [(0 : Fin 256)] ≠ [(1 : Fin 256)] :=
  ⟨by decide, c8_compare_properties.2.2 [(0 : Fin 256)] [(1 : Fin 256)] (by decide)⟩

/-- C9: a destination unit with an empty destination is always printed to
standard output with the text unchanged, whatever the merge (`Embed`) and
verify (`Check`) flags are — the embed preprocessing is skipped (no file
read or merge) and neither the check nor the write branch is reached. -/
theorem c9_empty_destination_prints :
    ∀ (embedFlag checkFlag : Bool) (fileData : Option (List Char)) (text : List Char),
      writeOutputUnit embedFlag checkFlag fileData [] text = .printed text := by
  intro embedFlag checkFlag fileData text
  simp [writeOutputUnit]

/-- C10: a present fallback flags string that parses successfully but sets
no tags option — the empty string, or a plain non-flag word — leaves the
flag at its default `""`, and splitting `""` on commas yields the one-element
list containing the empty string, not the empty list. -/
theorem c10_empty_tags_split :
    DefaultTags (some []) = [[]]
    ∧ DefaultTags (some "invalid".toList) = [[]]
    ∧ ([[]] : List (List Char)) ≠ [] := by
  refine ⟨by decide, by decide, by decide⟩

end Gomarkdoc
